import Mathlib

/-!
Shallow embedding of the kinematics and workspace-lookup engine of
`src/kinematic.py` (class `Kinematic`), together with proofs of the
specification claims about it.

Conventions of the embedding:
* numpy float64 arithmetic is modelled over `ℝ`;
* a 4×4 homogeneous transform is a `Matrix (Fin 4) (Fin 4) ℝ`;
* numpy arrays of transforms are `List (Matrix (Fin 4) (Fin 4) ℝ)`;
* Python exceptions are modelled with `Except KinError`;
* `np.linspace a b n` is the function `linspace a b n : ℕ → ℝ` on indices
  `0 ≤ i < n` (numpy returns `[a]` for `n = 1`).
-/

open Real Matrix

noncomputable section

namespace ThrowingArm

/-- Default zero-curvature tolerance `tol=1e-6` of `Kinematic.trans_mat_cc`. -/
def tolDefault : ℝ := 1e-6

/-- Section lengths `params['L']` [m]. -/
def Lparam : Fin 3 → ℝ := ![0.3542, 0.289, 0.2268]

/-- Points per section `params['nPoints']`. -/
def nPoints : ℕ := 10

/-- Tendon routing radii `params['r_disk']` [m]. -/
def r_disk : Fin 3 → ℝ := ![0.0449, 0.0376, 0.0270]

/-- Tendon angular positions `params['sigma']` [rad]. -/
def sigmaParam : Fin 3 → Fin 3 → ℝ :=
  ![![0, 2 * Real.pi / 3, 4 * Real.pi / 3],
    ![Real.pi / 6, 5 * Real.pi / 6, 3 * Real.pi / 2],
    ![Real.pi / 3, Real.pi, 5 * Real.pi / 3]]

/-- Bending stiffnesses `params['Kbend']` [N·m²]. -/
def Kbend : Fin 3 → ℝ := ![17.860, 11.819, 7.036]

/-- `np.linspace a b n` evaluated at index `i` (`0 ≤ i < n`):
`[a]` when `n = 1`, otherwise `a + (b - a) * i / (n - 1)`. -/
def linspace (a b : ℝ) (n i : ℕ) : ℝ :=
  if n = 1 then a else a + (b - a) * i / ((n : ℝ) - 1)

/-- The matrix `Rz1` of `trans_mat_cc` (rotation by `phi` about z). -/
def Rz1 (phi : ℝ) : Matrix (Fin 3) (Fin 3) ℝ :=
  !![Real.cos phi, -Real.sin phi, 0;
     Real.sin phi,  Real.cos phi, 0;
     0,             0,            1]

/-- The matrix `Rz2` of `trans_mat_cc` (rotation by `-phi` about z). -/
def Rz2 (phi : ℝ) : Matrix (Fin 3) (Fin 3) ℝ :=
  !![ Real.cos phi, Real.sin phi, 0;
     -Real.sin phi, Real.cos phi, 0;
      0,            0,            1]

/-- One slice of the batch `Ry_all` of `trans_mat_cc` (rotation about local y). -/
def RyM (th : ℝ) : Matrix (Fin 3) (Fin 3) ℝ :=
  !![ Real.cos th, 0, Real.sin th;
      0,           1, 0;
     -Real.sin th, 0, Real.cos th]

/-- Assembly of one homogeneous transform: `T[:3,:3] = R`, `T[:3,3] = p`,
`T[3,3] = 1`, remaining entries zero. -/
def homFrame (R : Matrix (Fin 3) (Fin 3) ℝ) (p : Fin 3 → ℝ) :
    Matrix (Fin 4) (Fin 4) ℝ :=
  !![R 0 0, R 0 1, R 0 2, p 0;
     R 1 0, R 1 1, R 1 2, p 1;
     R 2 0, R 2 1, R 2 2, p 2;
     0,     0,     0,     1]

/-- `Kinematic.trans_mat_cc kappa phi L n_pts tol`: the list of `n_pts`
homogeneous transforms at arc lengths `np.linspace 0 L n_pts`. -/
def trans_mat_cc (kappa phi L : ℝ) (n_pts : ℕ) (tol : ℝ) :
    List (Matrix (Fin 4) (Fin 4) ℝ) :=
  (List.range n_pts).map fun i =>
    let s := linspace 0 L n_pts i
    if |kappa| < tol then
      homFrame 1 ![0, 0, s]
    else
      let th := kappa * s
      homFrame (Rz1 phi * RyM th * Rz2 phi)
        ![(1 / kappa) * ((1 - Real.cos th) * Real.cos phi),
          (1 / kappa) * ((1 - Real.cos th) * Real.sin phi),
          (1 / kappa) * Real.sin th]

/-- Translation column of a homogeneous transform (`T[:3, 3]`). -/
def transl (T : Matrix (Fin 4) (Fin 4) ℝ) : Fin 3 → ℝ :=
  ![T 0 3, T 1 3, T 2 3]

/-- `np.arctan2 y x` (four-quadrant arctangent; `atan2 0 0 = 0`). -/
def atan2 (y x : ℝ) : ℝ :=
  if 0 < x then Real.arctan (y / x)
  else if x < 0 then
    (if 0 ≤ y then Real.arctan (y / x) + Real.pi
     else Real.arctan (y / x) - Real.pi)
  else
    (if 0 < y then Real.pi / 2
     else if y < 0 then -(Real.pi / 2)
     else 0)

/-- `tensions.reshape(3, 3)`: entry `(j, i)` of the reshaped tension array. -/
def reshape3 (ts : List ℝ) (j i : Fin 3) : ℝ :=
  ts.getD (3 * j.1 + i.1) 0

/-- Local bending moment x-component of section `j`:
`r_disk[j] * Σ_i tensions[j,i] * cos(sigma[j,i])`. -/
def Mx_local (ts : List ℝ) (j : Fin 3) : ℝ :=
  r_disk j * ∑ i : Fin 3, reshape3 ts j i * Real.cos (sigmaParam j i)

/-- Local bending moment y-component of section `j`:
`r_disk[j] * Σ_i tensions[j,i] * sin(sigma[j,i])`. -/
def My_local (ts : List ℝ) (j : Fin 3) : ℝ :=
  r_disk j * ∑ i : Fin 3, reshape3 ts j i * Real.sin (sigmaParam j i)

/-- Cumulative moment `Mx_cum[j] = np.sum(Mx_local[j:])`. -/
def Mx_cum (ts : List ℝ) (j : Fin 3) : ℝ :=
  ∑ k : Fin 3, if j ≤ k then Mx_local ts k else 0

/-- Cumulative moment `My_cum[j] = np.sum(My_local[j:])`. -/
def My_cum (ts : List ℝ) (j : Fin 3) : ℝ :=
  ∑ k : Fin 3, if j ≤ k then My_local ts k else 0

/-- Bending-plane angles `phi_vals = np.arctan2(My_cum, Mx_cum)`. -/
def phi_vals (ts : List ℝ) (j : Fin 3) : ℝ :=
  atan2 (My_cum ts j) (Mx_cum ts j)

/-- Curvatures `kappa_vals = np.hypot(Mx_cum, My_cum) / Kbend`. -/
def kappa_vals (ts : List ℝ) (j : Fin 3) : ℝ :=
  Real.sqrt ((Mx_cum ts j) ^ 2 + (My_cum ts j) ^ 2) / Kbend j

/-- The three columns of `curvatures = np.vstack((kappa_vals, phi_vals, L))`. -/
def curvList (ts : List ℝ) : List (ℝ × ℝ × ℝ) :=
  [(kappa_vals ts 0, phi_vals ts 0, Lparam 0),
   (kappa_vals ts 1, phi_vals ts 1, Lparam 1),
   (kappa_vals ts 2, phi_vals ts 2, Lparam 2)]

/-- The per-section loop of `soft_arm_pcc` (Step 4): starting from the
accumulated transform `Tprev`, map each section's local transforms to global
ones (`T_prev @ Tj_local`) and continue from the section's last global frame
(`T_prev = Tj_global[-1]`). -/
def chainFrom (n : ℕ) (Tprev : Matrix (Fin 4) (Fin 4) ℝ) :
    List (ℝ × ℝ × ℝ) → List (List (Matrix (Fin 4) (Fin 4) ℝ))
  | [] => []
  | c :: rest =>
      let sec := (trans_mat_cc c.1 c.2.1 c.2.2 n tolDefault).map fun T => Tprev * T
      sec :: chainFrom n (sec.getLastD Tprev) rest

/-- The `frames` output of `soft_arm_pcc` (list of three sections of global
frames), before the length-9 validity check. -/
def sectionsOf (ts : List ℝ) : List (List (Matrix (Fin 4) (Fin 4) ℝ)) :=
  chainFrom nPoints 1 (curvList ts)

/-- The `positions` output of `soft_arm_pcc`, section-major sample-minor:
column `j*n + i` is the translation of global frame `i` of section `j`. -/
def positionsOf (ts : List ℝ) : List (Fin 3 → ℝ) :=
  ((sectionsOf ts).map fun sec => sec.map transl).flatten

/-- The tip position used by the workspace sampler:
`positions[:, -1]`, the last backbone point. -/
def tip_pos (ts : List ℝ) : Fin 3 → ℝ :=
  (positionsOf ts).getLastD ![0, 0, 0]

/-- Errors of the engine: `inputError` models the exception raised when the
tension array cannot be reshaped to `(3, 3)`; `indexError` models Python's
out-of-range indexing error; `emptyTableError` is the typed error the
specification requires for inverse queries on an empty table. -/
inductive KinError where
  | inputError
  | indexError
  | emptyTableError
deriving DecidableEq

/-- `Kinematic.soft_arm_pcc tensions`: fails iff the flattened tension list
cannot be reshaped to `(3, 3)` (length ≠ 9); otherwise returns the positions,
per-section global frames and curvature triples. -/
def soft_arm_pcc (ts : List ℝ) :
    Except KinError
      (List (Fin 3 → ℝ) × List (List (Matrix (Fin 4) (Fin 4) ℝ)) ×
        List (ℝ × ℝ × ℝ)) :=
  if ts.length = 9 then
    .ok (positionsOf ts, sectionsOf ts, curvList ts)
  else
    .error .inputError

/-- One row of the lookup table: tip position `(x, y, z)` and the three
actuated tensions `(t1, t2, t3)`. -/
abbrev Record : Type := (Fin 3 → ℝ) × (Fin 3 → ℝ)

/-- State of a `Kinematic` object: the lookup table and the set of positions
the `cKDTree` was built from (`lookup_table[:, :3]` at build time). -/
structure KinState where
  lookup_table : List Record
  treeSource : List (Fin 3 → ℝ)

/-- `cKDTree(self.lookup_table[:, :3])`: positions the tree indexes. -/
def buildTree (table : List Record) : List (Fin 3 → ℝ) :=
  table.map Prod.fst

/-- Euclidean distance in ℝ³, as returned by `cKDTree.query`. -/
def dist3 (p q : Fin 3 → ℝ) : ℝ :=
  Real.sqrt (∑ i : Fin 3, (p i - q i) ^ 2)

/-- Index returned by `cKDTree.query`: the least index of a stored point at
minimal Euclidean distance from the target (`0`, i.e. the number of points,
when the tree is empty). -/
def nearestIdx (target : Fin 3 → ℝ) : List (Fin 3 → ℝ) → ℕ
  | [] => 0
  | p :: rest =>
      if rest = [] then 0
      else if dist3 target p ≤
          dist3 target (rest.getD (nearestIdx target rest) ![0, 0, 0]) then 0
      else nearestIdx target rest + 1

/-- `Kinematic.inverse_kinematic`: query the tree for the nearest neighbor of
`target`, then read row `idx` of the lookup table; returns
`((t1,t2,t3), (x,y,z), dist)`. Indexing an empty table raises an index
error — there is no `EmptyTableError` guard in the code. -/
def inverse_kinematic (s : KinState) (target : Fin 3 → ℝ) :
    Except KinError ((Fin 3 → ℝ) × (Fin 3 → ℝ) × ℝ) :=
  let idx := nearestIdx target s.treeSource
  match s.lookup_table.get? idx with
  | none => .error .indexError
  | some r => .ok (r.2, r.1, dist3 target (s.treeSource.getD idx ![0, 0, 0]))

/-- `tension_values = np.linspace(tension_min, tension_max, n_steps)` with
`tension_min = 0`, `tension_max = 200`. -/
def tensionValues (nsteps : ℕ) : List ℝ :=
  (List.range nsteps).map (linspace 0 200 nsteps)

/-- The 9-tendon tension assignment of the sampler: all zeros except the
actuated tendons `6, 7, 8` set to `t1, t2, t3`. -/
def tensionsOf (t1 t2 t3 : ℝ) : List ℝ :=
  [0, 0, 0, 0, 0, 0, t1, t2, t3]

/-- `Kinematic.generate_lookup_table` with the step count `n_steps` kept as a
parameter (the source fixes it to 25): sweep the three actuated tendons over
`tension_values`, record `[tip_pos, t1, t2, t3]` for every combination, then
rebuild the `cKDTree` from the new table. -/
def generate_lookup_table (nsteps : ℕ) (_s : KinState) : KinState :=
  let table :=
    (tensionValues nsteps).flatMap fun t1 =>
      (tensionValues nsteps).flatMap fun t2 =>
        (tensionValues nsteps).map fun t3 =>
          ((tip_pos (tensionsOf t1 t2 t3), ![t1, t2, t3]) : Record)
  { lookup_table := table, treeSource := buildTree table }

/-! ### Lemmas on homogeneous frames -/

theorem homFrame_mul (R₁ R₂ : Matrix (Fin 3) (Fin 3) ℝ) (p₁ p₂ : Fin 3 → ℝ) :
    homFrame R₁ p₁ * homFrame R₂ p₂ =
      homFrame (R₁ * R₂) (R₁.mulVec p₂ + p₁) := by
  ext i j
  fin_cases i <;> fin_cases j <;>
    simp [homFrame, Matrix.mul_apply, Matrix.mulVec, Matrix.dotProduct,
      Fin.sum_univ_succ] <;> ring

theorem homFrame_one : homFrame 1 ![0, 0, 0] = 1 := by
  ext i j
  fin_cases i <;> fin_cases j <;>
    simp [homFrame, Matrix.one_apply, Matrix.vecHead, Matrix.vecTail]

theorem transl_homFrame (R : Matrix (Fin 3) (Fin 3) ℝ) (p : Fin 3 → ℝ) :
    transl (homFrame R p) = p := by
  funext i
  fin_cases i <;> simp [transl, homFrame]

theorem Rz1_mul_Rz2 (phi : ℝ) : Rz1 phi * Rz2 phi = 1 := by
  ext i j
  fin_cases i <;> fin_cases j <;>
    simp [Rz1, Rz2, Matrix.mul_apply, Matrix.one_apply, Fin.sum_univ_succ] <;>
    nlinarith [Real.sin_sq_add_cos_sq phi]

theorem RyM_zero : RyM 0 = 1 := by
  ext i j
  fin_cases i <;> fin_cases j <;>
    simp [RyM, Matrix.one_apply, Matrix.vecHead, Matrix.vecTail]

theorem Rz2_eq_Rz1_neg (phi : ℝ) : Rz2 phi = Rz1 (-phi) := by
  ext i j
  fin_cases i <;> fin_cases j <;> simp [Rz1, Rz2]

/-! ### Lemmas on `linspace` and `trans_mat_cc` -/

theorem linspace_head (a b : ℝ) (n : ℕ) : linspace a b n 0 = a := by
  unfold linspace
  split <;> simp

theorem linspace_last (a b : ℝ) (n : ℕ) (hn : 2 ≤ n) :
    linspace a b n (n - 1) = b := by
  unfold linspace
  have h : 2 ≤ n := hn
  · have h1 : ¬ n = 1 := by omega
    have h2 : ((n - 1 : ℕ) : ℝ) = (n : ℝ) - 1 := by
      push_cast [Nat.cast_sub (by omega : 1 ≤ n)]
      ring
    have h3 : (n : ℝ) - 1 ≠ 0 := by
      have : (2 : ℝ) ≤ (n : ℝ) := by exact_mod_cast h
      linarith
    rw [if_neg h1, h2]
    field_simp

theorem trans_mat_cc_length (kappa phi L : ℝ) (n_pts : ℕ) (tol : ℝ) :
    (trans_mat_cc kappa phi L n_pts tol).length = n_pts := by
  simp [trans_mat_cc]

theorem trans_mat_cc_getD (kappa phi L : ℝ) (n_pts : ℕ) (tol : ℝ) (i : ℕ)
    (hi : i < n_pts) (d : Matrix (Fin 4) (Fin 4) ℝ) :
    (trans_mat_cc kappa phi L n_pts tol).getD i d =
      (if |kappa| < tol then
        homFrame 1 ![0, 0, linspace 0 L n_pts i]
      else
        homFrame (Rz1 phi * RyM (kappa * linspace 0 L n_pts i) * Rz2 phi)
          ![(1 / kappa) * ((1 - Real.cos (kappa * linspace 0 L n_pts i)) * Real.cos phi),
            (1 / kappa) * ((1 - Real.cos (kappa * linspace 0 L n_pts i)) * Real.sin phi),
            (1 / kappa) * Real.sin (kappa * linspace 0 L n_pts i)]) := by
  unfold trans_mat_cc
  rw [List.getD_eq_getElem?_getD, List.getElem?_map, List.getElem?_range hi]
  rfl

/-- The first transform of `trans_mat_cc` is the identity in both branches. -/
theorem trans_mat_cc_headD (kappa phi L : ℝ) (n_pts : ℕ) (tol : ℝ)
    (hn : 1 ≤ n_pts) (d : Matrix (Fin 4) (Fin 4) ℝ) :
    (trans_mat_cc kappa phi L n_pts tol).headD d = 1 := by
  have h0 : (trans_mat_cc kappa phi L n_pts tol).headD d =
      (trans_mat_cc kappa phi L n_pts tol).getD 0 d := by
    cases h : trans_mat_cc kappa phi L n_pts tol <;> simp
  rw [h0, trans_mat_cc_getD kappa phi L n_pts tol 0 hn d, linspace_head]
  split
  · exact homFrame_one
  · rw [mul_zero]
    have hR : Rz1 phi * RyM 0 * Rz2 phi = 1 := by
      rw [RyM_zero, mul_one, Rz1_mul_Rz2]
    have hp : ![(1 / kappa) * ((1 - Real.cos 0) * Real.cos phi),
        (1 / kappa) * ((1 - Real.cos 0) * Real.sin phi),
        (1 / kappa) * Real.sin 0] = ![(0 : ℝ), 0, 0] := by
      simp
    rw [hR, hp, homFrame_one]

/-! ### List helpers -/

theorem getLastD_of_ne_nil {α : Type} (l : List α) (h : l ≠ []) (d₁ d₂ : α) :
    l.getLastD d₁ = l.getLastD d₂ := by
  cases l with
  | nil => exact absurd rfl h
  | cons a t => rw [List.getLastD_cons, List.getLastD_cons]

theorem getLastD_append_right {α : Type} (l₁ l₂ : List α) (h : l₂ ≠ [])
    (d : α) : (l₁ ++ l₂).getLastD d = l₂.getLastD d := by
  rw [List.getLastD_eq_getLast?, List.getLastD_eq_getLast?,
    List.getLast?_append_of_ne_nil l₁ h]

theorem getLastD_map_cons {α β : Type} (f : α → β) (a : α) (l : List α)
    (d : β) (d' : α) : ((a :: l).map f).getLastD d = f ((a :: l).getLastD d') := by
  induction l generalizing a d d' with
  | nil => simp
  | cons b u ih =>
      rw [List.map_cons, List.getLastD_cons, List.getLastD_cons]
      exact ih b (f a) a

theorem getLastD_map {α β : Type} (f : α → β) (l : List α) (h : l ≠ [])
    (d : β) (d' : α) : (l.map f).getLastD d = f (l.getLastD d') := by
  cases l with
  | nil => exact absurd rfl h
  | cons a t => exact getLastD_map_cons f a t d d'

theorem getLastD_range_map {α : Type} (f : ℕ → α) (n : ℕ) (hn : 1 ≤ n)
    (d : α) : ((List.range n).map f).getLastD d = f (n - 1) := by
  obtain ⟨m, rfl⟩ : ∃ m, n = m + 1 := ⟨n - 1, by omega⟩
  rw [List.range_succ, List.map_append]
  rw [getLastD_append_right _ _ (by simp) d]
  simp

theorem getD_zero_eq_headD {α : Type} (l : List α) (h : l ≠ []) (d : α) :
    l.getD 0 d = l.headD d := by
  cases l with
  | nil => exact absurd rfl h
  | cons a t => simp

theorem headD_of_ne_nil {α : Type} (l : List α) (h : l ≠ []) (d₁ d₂ : α) :
    l.headD d₁ = l.headD d₂ := by
  cases l with
  | nil => exact absurd rfl h
  | cons a t => simp

/-! ### Chain-composition lemmas -/

theorem trans_mat_cc_ne_nil (kappa phi L : ℝ) (n : ℕ) (tol : ℝ)
    (hn : 1 ≤ n) : trans_mat_cc kappa phi L n tol ≠ [] := by
  intro h
  have := trans_mat_cc_length kappa phi L n tol
  rw [h] at this
  simp at this
  omega

/-- The first global frame of a section seeded at `Tprev` is `Tprev` itself. -/
theorem section_headD (kappa phi L : ℝ) (n : ℕ) (hn : 1 ≤ n)
    (Tprev d : Matrix (Fin 4) (Fin 4) ℝ) :
    (((trans_mat_cc kappa phi L n tolDefault).map fun T => Tprev * T).headD d)
      = Tprev := by
  cases h : trans_mat_cc kappa phi L n tolDefault with
  | nil => exact absurd h (trans_mat_cc_ne_nil kappa phi L n tolDefault hn)
  | cons a t =>
      have ha : a = 1 := by
        have := trans_mat_cc_headD kappa phi L n tolDefault hn d
        rw [h] at this
        simpa using this
      simp [ha]

theorem chainFrom_length (n : ℕ) (Tprev : Matrix (Fin 4) (Fin 4) ℝ)
    (cs : List (ℝ × ℝ × ℝ)) : (chainFrom n Tprev cs).length = cs.length := by
  induction cs generalizing Tprev with
  | nil => rfl
  | cons c rest ih => simp [chainFrom, ih]

theorem chainFrom_sec_ne_nil (n : ℕ) (hn : 1 ≤ n)
    (Tprev : Matrix (Fin 4) (Fin 4) ℝ) (cs : List (ℝ × ℝ × ℝ)) :
    ∀ sec ∈ chainFrom n Tprev cs, sec ≠ [] := by
  induction cs generalizing Tprev with
  | nil => intro sec h; simp [chainFrom] at h
  | cons c rest ih =>
      intro sec h
      rw [chainFrom] at h
      rcases List.mem_cons.mp h with h1 | h2
      · subst h1
        intro hnil
        exact trans_mat_cc_ne_nil c.1 c.2.1 c.2.2 n tolDefault hn
          (List.map_eq_nil_iff.mp hnil)
      · exact ih _ _ h2

/-- Chain continuity of the composition loop: the first frame of section
`j + 1` is the last frame of section `j`. -/
theorem chainFrom_continuity (n : ℕ) (hn : 1 ≤ n)
    (Tprev : Matrix (Fin 4) (Fin 4) ℝ) (cs : List (ℝ × ℝ × ℝ)) (j : ℕ)
    (hj : j + 1 < cs.length) :
    ((chainFrom n Tprev cs).getD (j + 1) []).headD 1 =
      ((chainFrom n Tprev cs).getD j []).getLastD 1 := by
  induction cs generalizing Tprev j with
  | nil => simp at hj
  | cons c rest ih =>
      rw [chainFrom]
      cases j with
      | zero =>
          have hrest : rest ≠ [] := by
            intro h
            rw [h] at hj
            simp at hj
          obtain ⟨c', rest', rfl⟩ : ∃ c' rest', rest = c' :: rest' := by
            cases rest with
            | nil => exact absurd rfl hrest
            | cons c' rest' => exact ⟨c', rest', rfl⟩
          rw [List.getD_cons_succ, List.getD_cons_zero]
          rw [chainFrom]
          set sec := (trans_mat_cc c.1 c.2.1 c.2.2 n tolDefault).map
            fun T => Tprev * T with hsec
          have hne : sec ≠ [] := by
            intro h
            exact trans_mat_cc_ne_nil c.1 c.2.1 c.2.2 n tolDefault hn
              (List.map_eq_nil_iff.mp h)
          rw [List.getD_cons_zero]
          rw [section_headD c'.1 c'.2.1 c'.2.2 n hn (sec.getLastD Tprev) 1]
          exact getLastD_of_ne_nil sec hne Tprev 1
      | succ k =>
          rw [List.getD_cons_succ, List.getD_cons_succ]
          exact ih _ k (by simpa using Nat.lt_of_succ_lt_succ hj)

/-! ### Claim C5: fail-fast on malformed tension vectors -/

/-- C5: the forward-kinematics entry point `soft_arm_pcc` fails with the
input error, producing no result, exactly when the tension sequence does not
have length 9; for every length-9 sequence it returns its full output. -/
theorem soft_arm_pcc_fail_fast (ts : List ℝ) :
    (soft_arm_pcc ts = .ok (positionsOf ts, sectionsOf ts, curvList ts) ↔
      ts.length = 9) ∧
    (soft_arm_pcc ts = .error .inputError ↔ ts.length ≠ 9) := by
  unfold soft_arm_pcc
  by_cases h : ts.length = 9 <;> simp [h]

/-- Witness for C5 at the all-zero length-9 vector and at a length-1 vector. -/
theorem soft_arm_pcc_fail_fast_witness :
    soft_arm_pcc (List.replicate 9 0) =
      .ok (positionsOf (List.replicate 9 0), sectionsOf (List.replicate 9 0),
        curvList (List.replicate 9 0)) ∧
    soft_arm_pcc [0] = .error .inputError := by
  constructor
  · exact (soft_arm_pcc_fail_fast (List.replicate 9 0)).1.mpr (by simp)
  · exact (soft_arm_pcc_fail_fast [0]).2.mpr (by simp)

/-! ### Claim C6: chain continuity -/

/-- C6: for every length-9 tension vector, the last backbone position of
section `j` equals the first backbone position of section `j + 1`
(here: exactly, hence within any floating tolerance), for `j = 0` and
`j = 1`, because the frame ending section `j` seeds section `j + 1`. -/
theorem chain_continuity (ts : List ℝ) (pos : List (Fin 3 → ℝ))
    (secs : List (List (Matrix (Fin 4) (Fin 4) ℝ))) (curv : List (ℝ × ℝ × ℝ))
    (h : soft_arm_pcc ts = .ok (pos, secs, curv)) (j : ℕ) (hj : j < 2) :
    transl ((secs.getD j []).getLastD 1) =
      transl ((secs.getD (j + 1) []).headD 1) := by
  have hsecs : secs = sectionsOf ts := by
    unfold soft_arm_pcc at h
    split at h
    · injection h with h'
      exact (congrArg (fun x => x.2.1) h').symm
    · exact absurd h (by simp)
  subst hsecs
  have hcont := chainFrom_continuity nPoints (by norm_num [nPoints]) 1
    (curvList ts) j (by rw [show (curvList ts).length = 3 from rfl]; omega)
  unfold sectionsOf
  rw [hcont]

/-- Witness for C6: continuity at the all-zero tension vector, `j = 0`. -/
theorem chain_continuity_witness :
    transl (((sectionsOf (List.replicate 9 0)).getD 0 []).getLastD 1) =
      transl (((sectionsOf (List.replicate 9 0)).getD 1 []).headD 1) := by
  have h : soft_arm_pcc (List.replicate 9 0) =
      .ok (positionsOf (List.replicate 9 0), sectionsOf (List.replicate 9 0),
        curvList (List.replicate 9 0)) := by
    unfold soft_arm_pcc
    rw [if_pos (by simp)]
  exact chain_continuity (List.replicate 9 0) _ _ _ h 0 (by norm_num)

/-! ### Claims C3 and C8: the two branches of `trans_mat_cc` -/

theorem homFrame_bottom_row (R : Matrix (Fin 3) (Fin 3) ℝ) (p : Fin 3 → ℝ)
    (j : Fin 4) : homFrame R p 3 j = ![(0 : ℝ), 0, 0, 1] j := by
  fin_cases j <;> simp [homFrame]

/-- C3: for `|kappa| ≥ tol`, arc length `L ≥ 0` and `n ≥ 1`, `trans_mat_cc`
returns `n` frames at the arc lengths `linspace 0 L n i` (uniform over
`[0, L]`), whose rotation at sample `s` is `Rz(phi)·Ry(kappa·s)·Rz(-phi)` and
whose translation is
`(1/kappa)·((1-cos(kappa·s))·cos phi, (1-cos(kappa·s))·sin phi, sin(kappa·s))`;
the first frame is the identity (identity rotation, zero translation) and
every frame has bottom row `[0,0,0,1]`. -/
theorem trans_mat_cc_curved (kappa phi L : ℝ) (n : ℕ)
    (hk : tolDefault ≤ |kappa|) (_hL : 0 ≤ L) (hn : 1 ≤ n) :
    (trans_mat_cc kappa phi L n tolDefault).length = n ∧
    (∀ i, i < n →
      (trans_mat_cc kappa phi L n tolDefault).getD i 1 =
        homFrame (Rz1 phi * RyM (kappa * linspace 0 L n i) * Rz1 (-phi))
          ![(1 / kappa) * ((1 - Real.cos (kappa * linspace 0 L n i)) * Real.cos phi),
            (1 / kappa) * ((1 - Real.cos (kappa * linspace 0 L n i)) * Real.sin phi),
            (1 / kappa) * Real.sin (kappa * linspace 0 L n i)]) ∧
    (trans_mat_cc kappa phi L n tolDefault).getD 0 1 = 1 ∧
    (∀ i, i < n → ∀ j : Fin 4,
      ((trans_mat_cc kappa phi L n tolDefault).getD i 1) 3 j =
        ![(0 : ℝ), 0, 0, 1] j) := by
  have hnot : ¬ |kappa| < tolDefault := not_lt.mpr hk
  refine ⟨trans_mat_cc_length kappa phi L n tolDefault, ?_, ?_, ?_⟩
  · intro i hi
    rw [trans_mat_cc_getD kappa phi L n tolDefault i hi 1, if_neg hnot,
      Rz2_eq_Rz1_neg]
  · rw [getD_zero_eq_headD _ (trans_mat_cc_ne_nil kappa phi L n tolDefault hn) 1]
    exact trans_mat_cc_headD kappa phi L n tolDefault hn 1
  · intro i hi j
    rw [trans_mat_cc_getD kappa phi L n tolDefault i hi 1, if_neg hnot]
    exact homFrame_bottom_row _ _ j

/-- Witness for C3 at `kappa = 1`, `phi = 0`, `L = 1`, `n = 1`. -/
theorem trans_mat_cc_curved_witness :
    tolDefault ≤ |(1 : ℝ)| ∧ (0 : ℝ) ≤ 1 ∧ 1 ≤ 1 ∧
    ((trans_mat_cc 1 0 1 1 tolDefault).length = 1 ∧
    (∀ i, i < 1 →
      (trans_mat_cc 1 0 1 1 tolDefault).getD i 1 =
        homFrame (Rz1 0 * RyM (1 * linspace 0 1 1 i) * Rz1 (-0))
          ![(1 / 1) * ((1 - Real.cos (1 * linspace 0 1 1 i)) * Real.cos 0),
            (1 / 1) * ((1 - Real.cos (1 * linspace 0 1 1 i)) * Real.sin 0),
            (1 / 1) * Real.sin (1 * linspace 0 1 1 i)]) ∧
    (trans_mat_cc 1 0 1 1 tolDefault).getD 0 1 = 1 ∧
    (∀ i, i < 1 → ∀ j : Fin 4,
      ((trans_mat_cc 1 0 1 1 tolDefault).getD i 1) 3 j =
        ![(0 : ℝ), 0, 0, 1] j)) := by
  refine ⟨by norm_num [tolDefault], by norm_num, le_refl 1, ?_⟩
  exact trans_mat_cc_curved 1 0 1 1 (by norm_num [tolDefault]) (by norm_num)
    (le_refl 1)

/-- C8: whenever `|kappa| < tol`, `trans_mat_cc` takes the straight-segment
branch: every frame has identity rotation and translation `(0, 0, s)`, and
the output coincides with the output at `kappa = 0` — the `1/kappa` division
of the curved branch plays no part in the result, so the evaluation cannot
fail on a vanishing curvature. -/
theorem trans_mat_cc_straight (kappa phi L : ℝ) (n : ℕ)
    (hk : |kappa| < tolDefault) :
    (∀ i, i < n →
      (trans_mat_cc kappa phi L n tolDefault).getD i 1 =
        homFrame 1 ![0, 0, linspace 0 L n i]) ∧
    trans_mat_cc kappa phi L n tolDefault = trans_mat_cc 0 phi L n tolDefault := by
  constructor
  · intro i hi
    rw [trans_mat_cc_getD kappa phi L n tolDefault i hi 1, if_pos hk]
  · unfold trans_mat_cc
    refine List.map_congr_left fun i _ => ?_
    rw [if_pos hk, if_pos (by norm_num [tolDefault] : |(0 : ℝ)| < tolDefault)]

/-- Witness for C8 at `kappa = 0` (which satisfies `|kappa| < tol`). -/
theorem trans_mat_cc_straight_witness :
    |(0 : ℝ)| < tolDefault ∧
    ((∀ i, i < 2 →
      (trans_mat_cc 0 3 5 2 tolDefault).getD i 1 =
        homFrame 1 ![0, 0, linspace 0 5 2 i]) ∧
    trans_mat_cc 0 3 5 2 tolDefault = trans_mat_cc 0 3 5 2 tolDefault) := by
  exact ⟨by norm_num [tolDefault],
    trans_mat_cc_straight 0 3 5 2 (by norm_num [tolDefault])⟩

/-! ### The all-zero tension vector (claim C7) -/

theorem homFrame_straight_mul (z s : ℝ) :
    homFrame 1 ![0, 0, z] * homFrame 1 ![0, 0, s] =
      homFrame 1 ![0, 0, z + s] := by
  rw [homFrame_mul, one_mul, Matrix.one_mulVec]
  funext i
  fin_cases i <;> simp [add_comm]

/-- Mapping a straight section's local frames into the global frame of a
point `(0,0,z)` on the axis yields straight global frames. -/
theorem straight_sec_global (phi l : ℝ) (n : ℕ) (z : ℝ) :
    (trans_mat_cc 0 phi l n tolDefault).map
        (fun T => homFrame 1 ![0, 0, z] * T) =
      (List.range n).map
        (fun i => homFrame 1 ![0, 0, z + linspace 0 l n i]) := by
  unfold trans_mat_cc
  rw [List.map_map]
  refine List.map_congr_left fun i _ => ?_
  simp only [Function.comp_apply]
  rw [if_pos (by norm_num [tolDefault] : |(0 : ℝ)| < tolDefault)]
  exact homFrame_straight_mul z _

theorem reshape3_zero (j i : Fin 3) :
    reshape3 (List.replicate 9 0) j i = 0 := by
  unfold reshape3
  rw [List.getD_eq_getElem?_getD, List.getElem?_replicate]
  split <;> rfl

theorem Mx_cum_zero (j : Fin 3) : Mx_cum (List.replicate 9 0) j = 0 := by
  have h : ∀ k i : Fin 3,
      reshape3 (List.replicate 9 0) k i * Real.cos (sigmaParam k i) = 0 :=
    fun k i => by rw [reshape3_zero, zero_mul]
  simp only [Mx_cum, Mx_local, h, Finset.sum_const_zero, mul_zero, ite_self]

theorem My_cum_zero (j : Fin 3) : My_cum (List.replicate 9 0) j = 0 := by
  have h : ∀ k i : Fin 3,
      reshape3 (List.replicate 9 0) k i * Real.sin (sigmaParam k i) = 0 :=
    fun k i => by rw [reshape3_zero, zero_mul]
  simp only [My_cum, My_local, h, Finset.sum_const_zero, mul_zero, ite_self]

theorem kappa_vals_zero (j : Fin 3) :
    kappa_vals (List.replicate 9 0) j = 0 := by
  unfold kappa_vals
  rw [Mx_cum_zero, My_cum_zero]
  norm_num

theorem phi_vals_zero (j : Fin 3) :
    phi_vals (List.replicate 9 0) j = 0 := by
  unfold phi_vals
  rw [Mx_cum_zero, My_cum_zero]
  simp [atan2]

theorem curvList_zero :
    curvList (List.replicate 9 0) =
      [(0, 0, Lparam 0), (0, 0, Lparam 1), (0, 0, Lparam 2)] := by
  simp only [curvList, kappa_vals_zero, phi_vals_zero]

/-- Shape of the three sections of the chain at zero tension: all frames are
pure translations along the longitudinal axis. -/
theorem sections_zero :
    sectionsOf (List.replicate 9 0) =
      [(List.range nPoints).map
          (fun i => homFrame 1 ![0, 0, 0 + linspace 0 (Lparam 0) nPoints i]),
       (List.range nPoints).map
          (fun i => homFrame 1
            ![0, 0, (0 + Lparam 0) + linspace 0 (Lparam 1) nPoints i]),
       (List.range nPoints).map
          (fun i => homFrame 1
            ![0, 0, ((0 + Lparam 0) + Lparam 1) +
              linspace 0 (Lparam 2) nPoints i])] := by
  have hn2 : 2 ≤ nPoints := by norm_num [nPoints]
  have h1 : (trans_mat_cc 0 0 (Lparam 0) nPoints tolDefault).map
      (fun T => (1 : Matrix (Fin 4) (Fin 4) ℝ) * T) =
      (List.range nPoints).map
        (fun i => homFrame 1 ![0, 0, 0 + linspace 0 (Lparam 0) nPoints i]) := by
    rw [← homFrame_one]
    exact straight_sec_global 0 (Lparam 0) nPoints 0
  have hlast1 : ((List.range nPoints).map
      (fun i => homFrame 1 ![0, 0, 0 + linspace 0 (Lparam 0) nPoints i])).getLastD 1 =
      homFrame 1 ![0, 0, 0 + Lparam 0] := by
    rw [getLastD_range_map _ nPoints (by omega) 1,
      linspace_last 0 (Lparam 0) nPoints hn2]
  have h2 : (trans_mat_cc 0 0 (Lparam 1) nPoints tolDefault).map
      (fun T => homFrame 1 ![0, 0, 0 + Lparam 0] * T) =
      (List.range nPoints).map
        (fun i => homFrame 1
          ![0, 0, (0 + Lparam 0) + linspace 0 (Lparam 1) nPoints i]) :=
    straight_sec_global 0 (Lparam 1) nPoints (0 + Lparam 0)
  have hlast2 : ((List.range nPoints).map
      (fun i => homFrame 1
        ![0, 0, (0 + Lparam 0) + linspace 0 (Lparam 1) nPoints i])).getLastD
          (homFrame 1 ![0, 0, 0 + Lparam 0]) =
      homFrame 1 ![0, 0, (0 + Lparam 0) + Lparam 1] := by
    rw [getLastD_range_map _ nPoints (by omega) _,
      linspace_last 0 (Lparam 1) nPoints hn2]
  have h3 : (trans_mat_cc 0 0 (Lparam 2) nPoints tolDefault).map
      (fun T => homFrame 1 ![0, 0, (0 + Lparam 0) + Lparam 1] * T) =
      (List.range nPoints).map
        (fun i => homFrame 1
          ![0, 0, ((0 + Lparam 0) + Lparam 1) +
            linspace 0 (Lparam 2) nPoints i]) :=
    straight_sec_global 0 (Lparam 2) nPoints ((0 + Lparam 0) + Lparam 1)
  unfold sectionsOf
  rw [curvList_zero]
  simp only [chainFrom]
  rw [h1, hlast1, h2, hlast2, h3]

/-- The tip position at the all-zero tension vector: straight along the axis
with offset the sum of the section lengths. -/
theorem tip_pos_zero :
    tip_pos (List.replicate 9 0) =
      ![0, 0, Lparam 0 + Lparam 1 + Lparam 2] := by
  unfold tip_pos positionsOf
  rw [sections_zero]
  have hn2 : 2 ≤ nPoints := by norm_num [nPoints]
  simp only [List.map_cons, List.map_nil, List.flatten_cons,
    List.flatten_nil, List.append_nil, List.map_map]
  rw [getLastD_append_right _ _ (by
    intro h
    rcases List.append_eq_nil.mp h with ⟨-, h2⟩
    rw [List.map_eq_nil_iff, List.range_eq_nil] at h2
    norm_num [nPoints] at h2)]
  rw [getLastD_append_right _ _ (by
    intro h
    rw [List.map_eq_nil_iff, List.range_eq_nil] at h
    norm_num [nPoints] at h)]
  rw [getLastD_range_map _ nPoints (by omega) _, Function.comp_apply,
    linspace_last 0 (Lparam 2) nPoints hn2, transl_homFrame]
  funext i
  fin_cases i <;> simp [add_assoc]

/-- C7: at the all-zero 9-element tension vector the solver yields zero
curvature for every section, every backbone position lies on the base
frame's longitudinal axis (`x = y = 0`), and the tip's axis offset is the
sum of the three section lengths. -/
theorem zero_tension_straight_arm :
    (∀ j : Fin 3, kappa_vals (List.replicate 9 0) j = 0) ∧
    (∀ p ∈ positionsOf (List.replicate 9 0), p 0 = 0 ∧ p 1 = 0) ∧
    tip_pos (List.replicate 9 0) =
      ![0, 0, Lparam 0 + Lparam 1 + Lparam 2] := by
  refine ⟨kappa_vals_zero, ?_, tip_pos_zero⟩
  · intro p hp
    unfold positionsOf at hp
    rw [sections_zero] at hp
    simp only [List.map_cons, List.map_nil] at hp
    obtain ⟨w, rfl⟩ : ∃ w : ℝ, p = ![0, 0, w] := by
      rcases List.mem_flatten.mp hp with ⟨l, hl, hpl⟩
      simp only [List.mem_cons, List.not_mem_nil, or_false] at hl
      rcases hl with rfl | rfl | rfl <;>
      · rcases List.mem_map.mp hpl with ⟨T, hT, rfl⟩
        rcases List.mem_map.mp hT with ⟨i, _, rfl⟩
        exact ⟨_, transl_homFrame _ _⟩
    constructor <;> simp

/-! ### Nearest-neighbor lookup (claims C1 and C2) -/

/-- Default record used for out-of-range `getD` reads in proofs. -/
def dfltRec : Record := (![0, 0, 0], ![0, 0, 0])

theorem dist3_nonneg (p q : Fin 3 → ℝ) : 0 ≤ dist3 p q :=
  Real.sqrt_nonneg _

theorem dist3_eq_zero_iff (p q : Fin 3 → ℝ) : dist3 p q = 0 ↔ p = q := by
  unfold dist3
  rw [Real.sqrt_eq_zero']
  constructor
  · intro h
    have h0 : ∑ i : Fin 3, (p i - q i) ^ 2 = 0 :=
      le_antisymm h (Finset.sum_nonneg fun i _ => sq_nonneg _)
    funext i
    have hi := (Finset.sum_eq_zero_iff_of_nonneg
      fun i _ => sq_nonneg (p i - q i)).mp h0 i (Finset.mem_univ i)
    exact sub_eq_zero.mp (sq_eq_zero_iff.mp hi)
  · rintro rfl
    simp

theorem dist3_self (p : Fin 3 → ℝ) : dist3 p p = 0 :=
  (dist3_eq_zero_iff p p).mpr rfl

theorem nearestIdx_lt (target : Fin 3 → ℝ) (pts : List (Fin 3 → ℝ))
    (h : pts ≠ []) : nearestIdx target pts < pts.length := by
  induction pts with
  | nil => exact absurd rfl h
  | cons p rest ih =>
      rw [nearestIdx]
      by_cases hr : rest = []
      · rw [if_pos hr]
        simp
      · rw [if_neg hr]
        split
        · simp
        · have := ih hr
          simp only [List.length_cons]
          omega

theorem nearestIdx_min (target : Fin 3 → ℝ) (pts : List (Fin 3 → ℝ))
    (m : ℕ) (hm : m < pts.length) :
    dist3 target (pts.getD (nearestIdx target pts) ![0, 0, 0]) ≤
      dist3 target (pts.getD m ![0, 0, 0]) := by
  induction pts generalizing m with
  | nil => simp at hm
  | cons p rest ih =>
      rw [nearestIdx]
      by_cases hr : rest = []
      · rw [if_pos hr]
        subst hr
        have hm0 : m = 0 := by
          simp only [List.length_cons, List.length_nil] at hm
          omega
        subst hm0
        exact le_refl _
      · rw [if_neg hr]
        by_cases hle : dist3 target p ≤
            dist3 target (rest.getD (nearestIdx target rest) ![0, 0, 0])
        · rw [if_pos hle]
          cases m with
          | zero => exact le_refl _
          | succ k =>
              rw [List.getD_cons_zero, List.getD_cons_succ]
              exact le_trans hle
                (ih k (by simpa using Nat.lt_of_succ_lt_succ hm))
        · rw [if_neg hle]
          push_neg at hle
          cases m with
          | zero =>
              rw [List.getD_cons_succ, List.getD_cons_zero]
              exact le_of_lt hle
          | succ k =>
              rw [List.getD_cons_succ, List.getD_cons_succ]
              exact ih k (by simpa using Nat.lt_of_succ_lt_succ hm)

theorem buildTree_length (table : List Record) :
    (buildTree table).length = table.length := by
  simp [buildTree]

theorem buildTree_getD (table : List Record) (m : ℕ) (hm : m < table.length) :
    (buildTree table).getD m ![0, 0, 0] = (table.getD m dfltRec).1 := by
  unfold buildTree
  rw [List.getD_eq_getElem?_getD, List.getD_eq_getElem?_getD,
    List.getElem?_map]
  rw [List.getElem?_eq_getElem hm]
  rfl

/-- Characterization of the inverse query on a freshly built tree: it reads
the table row at the nearest-neighbor index, an index at minimal Euclidean
distance from the target among all stored positions. -/
theorem inverse_kinematic_char (table : List Record) (h : table ≠ [])
    (target : Fin 3 → ℝ) :
    nearestIdx target (buildTree table) < table.length ∧
    inverse_kinematic ⟨table, buildTree table⟩ target =
      .ok ((table.getD (nearestIdx target (buildTree table)) dfltRec).2,
        (table.getD (nearestIdx target (buildTree table)) dfltRec).1,
        dist3 target
          (table.getD (nearestIdx target (buildTree table)) dfltRec).1) ∧
    ∀ m, m < table.length →
      dist3 target (table.getD (nearestIdx target (buildTree table)) dfltRec).1 ≤
        dist3 target (table.getD m dfltRec).1 := by
  have htne : buildTree table ≠ [] := by
    intro hh
    exact h (List.map_eq_nil_iff.mp hh)
  have hlt : nearestIdx target (buildTree table) < table.length := by
    rw [← buildTree_length table]
    exact nearestIdx_lt target (buildTree table) htne
  refine ⟨hlt, ?_, ?_⟩
  · have hget : table.get? (nearestIdx target (buildTree table)) =
        some (table.getD (nearestIdx target (buildTree table)) dfltRec) := by
      rw [List.get?_eq_getElem?, List.getElem?_eq_getElem hlt,
        List.getD_eq_getElem _ dfltRec hlt]
    simp only [inverse_kinematic, hget]
    rw [buildTree_getD table _ hlt]
  · intro m hm
    have := nearestIdx_min target (buildTree table) m
      (by rw [buildTree_length]; exact hm)
    rwa [buildTree_getD table _ hlt, buildTree_getD table m hm] at this

/-- C1: on a nonempty table with its tree built from that table's positions
(as both `__init__` and `generate_lookup_table` do), every query returns a
real recorded sample — the tension triple and position of some table row,
with the distance to that row's position; and a query at a target equal to
some record's position returns distance 0 and the exact tension triple of a
record whose position is the target. -/
theorem inverse_kinematic_roundtrip (table : List Record) (hne : table ≠ []) :
    (∀ target, ∃ r ∈ table,
      inverse_kinematic ⟨table, buildTree table⟩ target =
        .ok (r.2, r.1, dist3 target r.1)) ∧
    (∀ target, (∃ r ∈ table, r.1 = target) →
      ∃ r ∈ table, r.1 = target ∧
        inverse_kinematic ⟨table, buildTree table⟩ target =
          .ok (r.2, target, 0)) := by
  constructor
  · intro target
    obtain ⟨hlt, heq, -⟩ := inverse_kinematic_char table hne target
    refine ⟨table.getD (nearestIdx target (buildTree table)) dfltRec, ?_, heq⟩
    rw [List.getD_eq_getElem _ dfltRec hlt]
    exact List.getElem_mem hlt
  · intro target ⟨r0, hr0mem, hr0⟩
    obtain ⟨hlt, heq, hmin⟩ := inverse_kinematic_char table hne target
    obtain ⟨m, hm, hr0get⟩ := List.mem_iff_getElem.mp hr0mem
    have hgetm : table.getD m dfltRec = r0 := by
      rw [List.getD_eq_getElem _ dfltRec hm]
      exact hr0get
    have hdist0 :
        dist3 target (table.getD (nearestIdx target (buildTree table)) dfltRec).1
          = 0 := by
      refine le_antisymm ?_ (dist3_nonneg _ _)
      have := hmin m hm
      rw [hgetm, hr0] at this
      rwa [dist3_self target] at this
    have hpos : (table.getD (nearestIdx target (buildTree table)) dfltRec).1 =
        target := by
      have := (dist3_eq_zero_iff target _).mp hdist0
      exact this.symm
    refine ⟨table.getD (nearestIdx target (buildTree table)) dfltRec, ?_,
      hpos, ?_⟩
    · rw [List.getD_eq_getElem _ dfltRec hlt]
      exact List.getElem_mem hlt
    · rw [heq, hpos, dist3_self]

/-- Witness for C1 on a one-record table queried at that record's position. -/
theorem inverse_kinematic_roundtrip_witness :
    ([((![1, 2, 3] : Fin 3 → ℝ), (![4, 5, 6] : Fin 3 → ℝ))] ≠
      ([] : List Record)) ∧
    ((∀ target, ∃ r ∈ [((![1, 2, 3] : Fin 3 → ℝ), (![4, 5, 6] : Fin 3 → ℝ))],
      inverse_kinematic
          ⟨[(![1, 2, 3], ![4, 5, 6])],
            buildTree [(![1, 2, 3], ![4, 5, 6])]⟩ target =
        .ok (r.2, r.1, dist3 target r.1)) ∧
    (∀ target,
      (∃ r ∈ [((![1, 2, 3] : Fin 3 → ℝ), (![4, 5, 6] : Fin 3 → ℝ))],
        r.1 = target) →
      ∃ r ∈ [((![1, 2, 3] : Fin 3 → ℝ), (![4, 5, 6] : Fin 3 → ℝ))],
        r.1 = target ∧
        inverse_kinematic
            ⟨[(![1, 2, 3], ![4, 5, 6])],
              buildTree [(![1, 2, 3], ![4, 5, 6])]⟩ target =
          .ok (r.2, target, 0))) :=
  ⟨by simp, inverse_kinematic_roundtrip [(![1, 2, 3], ![4, 5, 6])] (by simp)⟩

/-- C2 (defect evaluation): `inverse_kinematic` on an empty table fails with
an index error from the out-of-range table read, and no execution of
`inverse_kinematic` ever produces the `EmptyTableError` the specification
requires — the code has no such guard. -/
theorem inverse_kinematic_no_empty_guard :
    inverse_kinematic ⟨[], []⟩ ![0, 0, 0] = .error .indexError ∧
    ∀ (s : KinState) (target : Fin 3 → ℝ),
      inverse_kinematic s target ≠ .error .emptyTableError := by
  constructor
  · rfl
  · intro s target
    unfold inverse_kinematic
    cases h : s.lookup_table.get? (nearestIdx target s.treeSource) <;>
      simp only [h] <;> simp

/-! ### Workspace sampler (claims C9 and C4) and solver sign (claim C10) -/

theorem sum_map_const_nat {α : Type} (l : List α) (c : ℕ) :
    (l.map fun _ => c).sum = l.length * c := by
  induction l with
  | nil => simp
  | cons a t ih =>
      simp only [List.map_cons, List.sum_cons, ih, List.length_cons]
      ring

theorem tensionValues_length (nsteps : ℕ) :
    (tensionValues nsteps).length = nsteps := by
  simp [tensionValues]

theorem generate_table_length (nsteps : ℕ) (s : KinState) :
    (generate_lookup_table nsteps s).lookup_table.length = nsteps ^ 3 := by
  unfold generate_lookup_table
  have h2 : ∀ t1 : ℝ,
      ((tensionValues nsteps).flatMap fun t2 =>
        (tensionValues nsteps).map fun t3 =>
          ((tip_pos (tensionsOf t1 t2 t3), ![t1, t2, t3]) : Record)).length =
      nsteps * nsteps := by
    intro t1
    rw [List.length_flatMap]
    simp only [Function.comp_def]
    have hmap : ((tensionValues nsteps).map fun t2 =>
        ((tensionValues nsteps).map fun t3 =>
          ((tip_pos (tensionsOf t1 t2 t3), ![t1, t2, t3]) : Record)).length) =
        (tensionValues nsteps).map fun _ => nsteps :=
      List.map_congr_left fun t2 _ => by
        rw [List.length_map, tensionValues_length]
    rw [hmap, sum_map_const_nat, tensionValues_length]
  rw [List.length_flatMap]
  simp only [Function.comp_def]
  have hmap2 : ((tensionValues nsteps).map fun t1 =>
      ((tensionValues nsteps).flatMap fun t2 =>
        (tensionValues nsteps).map fun t3 =>
          ((tip_pos (tensionsOf t1 t2 t3), ![t1, t2, t3]) : Record)).length) =
      (tensionValues nsteps).map fun _ => nsteps * nsteps :=
    List.map_congr_left fun t1 _ => h2 t1
  rw [hmap2, sum_map_const_nat, tensionValues_length]
  ring

/-- The last backbone position is the translation of the last frame of the
last section of the chain. -/
theorem flatten_transl_last (secs : List (List (Matrix (Fin 4) (Fin 4) ℝ)))
    (hne : secs ≠ []) (hall : ∀ sec ∈ secs, sec ≠ [])
    (d : Fin 3 → ℝ) (d₁ : Matrix (Fin 4) (Fin 4) ℝ) :
    ((secs.map fun sec => sec.map transl).flatten).getLastD d =
      transl ((secs.getLastD []).getLastD d₁) := by
  induction secs with
  | nil => exact absurd rfl hne
  | cons sec rest ih =>
      cases rest with
      | nil =>
          simp only [List.map_cons, List.map_nil, List.flatten_cons,
            List.flatten_nil, List.append_nil, List.getLastD_cons]
          exact getLastD_map transl sec (hall sec (List.mem_cons_self sec []))
            d d₁
      | cons sec2 rest2 =>
          have hflatne :
              (((sec2 :: rest2).map fun sc => sc.map transl).flatten) ≠ [] := by
            intro hnil
            have h2 := List.flatten_eq_nil_iff.mp hnil
              (sec2.map transl) (by simp)
            exact hall sec2 (List.mem_cons_of_mem sec (List.mem_cons_self _ _))
              (List.map_eq_nil_iff.mp h2)
          simp only [List.map_cons, List.flatten_cons] at hflatne ⊢
          rw [getLastD_append_right _ _ hflatne d]
          have hih := ih (by simp)
            (fun sc hsc => hall sc (List.mem_cons_of_mem sec hsc))
          simp only [List.map_cons, List.flatten_cons] at hih
          rw [hih]
          have h1 : (sec :: sec2 :: rest2).getLastD
              ([] : List (Matrix (Fin 4) (Fin 4) ℝ)) =
              (sec2 :: rest2).getLastD [] := by
            rw [List.getLastD_cons]
            exact getLastD_of_ne_nil (sec2 :: rest2) (by simp) sec []
          rw [h1]

theorem tip_pos_eq_last_frame (ts : List ℝ) :
    tip_pos ts = transl (((sectionsOf ts).getLastD []).getLastD 1) := by
  unfold tip_pos positionsOf
  refine flatten_transl_last (sectionsOf ts) ?_ ?_ ![0, 0, 0] 1
  · intro h
    have : (sectionsOf ts).length = 3 := by
      unfold sectionsOf
      rw [chainFrom_length]
      rfl
    rw [h] at this
    simp at this
  · exact chainFrom_sec_ne_nil nPoints (by norm_num [nPoints]) 1 (curvList ts)

/-- C9: for every step count `nsteps ≥ 1`, the sampler's table has exactly
`nsteps ^ 3` records (hence is never empty), and every record pairs the tip
position — the translation of the very last backbone frame for the swept
tension assignment — with the 3 swept tensions. -/
theorem generate_lookup_table_contract (nsteps : ℕ) (s : KinState)
    (hn : 1 ≤ nsteps) :
    (generate_lookup_table nsteps s).lookup_table.length = nsteps ^ 3 ∧
    (generate_lookup_table nsteps s).lookup_table ≠ [] ∧
    ∀ r ∈ (generate_lookup_table nsteps s).lookup_table,
      ∃ t1 ∈ tensionValues nsteps, ∃ t2 ∈ tensionValues nsteps,
        ∃ t3 ∈ tensionValues nsteps,
        r = (transl (((sectionsOf (tensionsOf t1 t2 t3)).getLastD []).getLastD 1),
            ![t1, t2, t3]) := by
  refine ⟨generate_table_length nsteps s, ?_, ?_⟩
  · intro h
    have hl := generate_table_length nsteps s
    rw [h] at hl
    have : nsteps ^ 3 ≠ 0 := pow_ne_zero 3 (by omega)
    simp at hl
    omega
  · intro r hr
    unfold generate_lookup_table at hr
    simp only [List.mem_flatMap, List.mem_map] at hr
    obtain ⟨t1, h1, t2, h2, t3, h3, rfl⟩ := hr
    exact ⟨t1, h1, t2, h2, t3, h3, by rw [← tip_pos_eq_last_frame]⟩

/-- Witness for C9 at `nsteps = 1` on the empty state. -/
theorem generate_lookup_table_contract_witness :
    1 ≤ 1 ∧
    ((generate_lookup_table 1 ⟨[], []⟩).lookup_table.length = 1 ^ 3 ∧
    (generate_lookup_table 1 ⟨[], []⟩).lookup_table ≠ [] ∧
    ∀ r ∈ (generate_lookup_table 1 ⟨[], []⟩).lookup_table,
      ∃ t1 ∈ tensionValues 1, ∃ t2 ∈ tensionValues 1, ∃ t3 ∈ tensionValues 1,
        r = (transl (((sectionsOf (tensionsOf t1 t2 t3)).getLastD []).getLastD 1),
            ![t1, t2, t3])) :=
  ⟨le_refl 1, generate_lookup_table_contract 1 ⟨[], []⟩ (le_refl 1)⟩

theorem tensionValues_one : tensionValues 1 = [0] := by
  have h1 : List.range 1 = [0] := by decide
  simp only [tensionValues, h1, List.map_cons, List.map_nil]
  unfold linspace
  rw [if_pos rfl]

theorem tensionsOf_zero : tensionsOf 0 0 0 = List.replicate 9 0 := rfl

/-- C4 counterexample: regeneration does not leave the old index in place —
after `generate_lookup_table` on a state whose tree was built from the old
table, the tree positions are those of the new table, not the old ones. -/
theorem generate_keeps_old_index_counterexample :
    (generate_lookup_table 1
        ⟨[(![1, 1, 1], ![5, 5, 5])], [![1, 1, 1]]⟩).treeSource ≠
      (⟨[(![1, 1, 1], ![5, 5, 5])], [![1, 1, 1]]⟩ : KinState).treeSource := by
  intro h
  have htree : (generate_lookup_table 1
      ⟨[(![1, 1, 1], ![5, 5, 5])], [![1, 1, 1]]⟩).treeSource =
      [tip_pos (tensionsOf 0 0 0)] := by
    unfold generate_lookup_table buildTree
    rw [tensionValues_one]
    simp
  rw [htree] at h
  have hhead : tip_pos (tensionsOf 0 0 0) = ![1, 1, 1] := by
    have := congrArg (fun l => l.headD ![9, 9, 9]) h
    simpa using this
  rw [tensionsOf_zero, tip_pos_zero] at hhead
  have := congrFun hhead 0
  simp at this

/-- C4 (amended): `generate_lookup_table` rebuilds the `cKDTree` from the
newly generated table as its final step, so immediately after a regeneration
the next inverse query is answered by an index built from — and consistent
with — the new active table: it returns a record of the new table together
with the distance to that record's position. -/
theorem generate_rebuilds_index (nsteps : ℕ) (s : KinState)
    (hn : 1 ≤ nsteps) :
    (generate_lookup_table nsteps s).treeSource =
      buildTree (generate_lookup_table nsteps s).lookup_table ∧
    ∀ target, ∃ r ∈ (generate_lookup_table nsteps s).lookup_table,
      inverse_kinematic (generate_lookup_table nsteps s) target =
        .ok (r.2, r.1, dist3 target r.1) := by
  constructor
  · rfl
  · intro target
    have hne : (generate_lookup_table nsteps s).lookup_table ≠ [] := by
      intro h
      have hl := generate_table_length nsteps s
      rw [h] at hl
      have : nsteps ^ 3 ≠ 0 := pow_ne_zero 3 (by omega)
      simp at hl
      omega
    obtain ⟨hlt, heq, -⟩ := inverse_kinematic_char
      (generate_lookup_table nsteps s).lookup_table hne target
    refine ⟨(generate_lookup_table nsteps s).lookup_table.getD
      (nearestIdx target
        (buildTree (generate_lookup_table nsteps s).lookup_table)) dfltRec,
      ?_, heq⟩
    rw [List.getD_eq_getElem _ dfltRec hlt]
    exact List.getElem_mem hlt

/-- Witness for the amended C4 at `nsteps = 1` on the empty state. -/
theorem generate_rebuilds_index_witness :
    1 ≤ 1 ∧
    ((generate_lookup_table 1 ⟨[], []⟩).treeSource =
      buildTree (generate_lookup_table 1 ⟨[], []⟩).lookup_table ∧
    ∀ target, ∃ r ∈ (generate_lookup_table 1 ⟨[], []⟩).lookup_table,
      inverse_kinematic (generate_lookup_table 1 ⟨[], []⟩) target =
        .ok (r.2, r.1, dist3 target r.1)) :=
  ⟨le_refl 1, generate_rebuilds_index 1 ⟨[], []⟩ (le_refl 1)⟩

/-- C10: for every tension list, each section's curvature is nonnegative
(`kappa_j = hypot(Mx_cum_j, My_cum_j) / Kbend_j` with `Kbend_j > 0`); signed
bending is carried only by the plane angle `phi_j`. -/
theorem kappa_vals_nonneg (ts : List ℝ) (j : Fin 3) :
    0 < Kbend j ∧ 0 ≤ kappa_vals ts j := by
  have hK : 0 < Kbend j := by fin_cases j <;> norm_num [Kbend]
  exact ⟨hK, div_nonneg (Real.sqrt_nonneg _) (le_of_lt hK)⟩

end ThrowingArm
